import Mathlib

/-!
Verification development for the two-component BEC half-quantum-vortex dipole
simulation (`HQV_dipole.py`).

The script builds a two-component wavefunction on an `Nx × Ny` periodic grid,
relaxes it in imaginary time (2000 iterations of a kinetic / potential /
kinetic split with renormalisation and phase fixing) and then evolves it in
real time, appending a snapshot of both components to a growable store every
`Nframe` steps.

Complex spatial and conjugate (Fourier) arrays are embedded as functions
`Fin n × Fin m → ℂ`; elementwise numpy/cupy operations become pointwise
operations on such functions, `cp.sum` becomes a `Finset` sum, and the
`cp.fft.fft2` / `cp.fft.ifft2` pair is embedded as the standard 2-dimensional
discrete Fourier transform with the numpy normalisation (no factor on the
forward transform, `1/(n·m)` on the inverse).  Floating point numbers are
modelled as real numbers.

The helpers `sm.kinetic_evolution`, `sm.potential_evolution` and `get_phase`
are imported by the script from `include/`, whose sources are not part of the
repository snapshot; they are modelled from the specification text (see the
doc comments on `kinetic_evolution` and `potential_evolution`, and the opaque
phase parameter `θ` of `psi_1_init`).
-/

namespace HQV

noncomputable section

/-- A two-dimensional complex or real array of shape `n × m`, embedded as a
function from grid indices. -/
abbrev Field2 (n m : ℕ) (α : Type) : Type := Fin n × Fin m → α

/-- Grid spacing `dx = 1` (source line 14). -/
def dx : ℝ := 1

/-- Grid spacing `dy = 1` (source line 14). -/
def dy : ℝ := 1

/-- The all-zero field (fill value of a freshly created dataset slice). -/
def zeroField {n m : ℕ} : Field2 n m ℂ := fun _ => 0

/-- The Fourier kernel `exp(2πi·a/N)`. -/
def eKer (N : ℕ) (a : ℤ) : ℂ := Complex.exp (2 * Real.pi * Complex.I * a / N)

/-- Embedding of `cp.fft.fft2`: the 2-dimensional discrete Fourier transform,
`F k = ∑ x, f x · exp(−2πi·k₁x₁/n) · exp(−2πi·k₂x₂/m)` (numpy convention,
no normalisation factor on the forward transform). -/
def fft2 {n m : ℕ} (f : Field2 n m ℂ) : Field2 n m ℂ :=
  fun k => ∑ x : Fin n × Fin m,
    f x * eKer n (-((k.1.val : ℤ) * x.1.val)) * eKer m (-((k.2.val : ℤ) * x.2.val))

/-- Embedding of `cp.fft.ifft2`: the inverse 2-dimensional discrete Fourier
transform, `f x = (n·m)⁻¹ ∑ k, F k · exp(2πi·k₁x₁/n) · exp(2πi·k₂x₂/m)`. -/
def ifft2 {n m : ℕ} (F : Field2 n m ℂ) : Field2 n m ℂ :=
  fun x => ((n * m : ℕ) : ℂ)⁻¹ * ∑ k : Fin n × Fin m,
    F k * eKer n ((k.1.val : ℤ) * x.1.val) * eKer m ((k.2.val : ℤ) * x.2.val)

/-- Modelled from the spec: `sm.kinetic_evolution` (the module
`include/symplecticMethod.py` is not in the repository snapshot).  It
multiplies the conjugate-domain field pointwise by
`exp(−i · step · (Kx² + Ky²)/2)`. -/
def kinetic_evolution {n m : ℕ} (ψ : Field2 n m ℂ) (step : ℂ)
    (Kx Ky : Field2 n m ℝ) : Field2 n m ℂ :=
  fun p => ψ p * Complex.exp (-Complex.I * step * ((Kx p ^ 2 + Ky p ^ 2 : ℝ) : ℂ) / 2)

/-- Modelled from the spec: `sm.potential_evolution` (the module
`include/symplecticMethod.py` is not in the repository snapshot).  It applies
the coupled nonlinear potential step
`ψ1' = ψ1 · exp(−i·step·(g1|ψ1|² + g12|ψ2|² − mu_1))`,
`ψ2' = ψ2 · exp(−i·step·(g2|ψ2|² + g12|ψ1|² − mu_2))`,
pointwise, with both phase factors computed from the input densities. -/
def potential_evolution {n m : ℕ} (ψ1 ψ2 : Field2 n m ℂ) (step : ℂ)
    (g1 g2 g12 mu1 mu2 : ℝ) : Field2 n m ℂ × Field2 n m ℂ :=
  (fun p => ψ1 p * Complex.exp (-Complex.I * step *
      ((g1 * Complex.abs (ψ1 p) ^ 2 + g12 * Complex.abs (ψ2 p) ^ 2 - mu1 : ℝ) : ℂ)),
   fun p => ψ2 p * Complex.exp (-Complex.I * step *
      ((g2 * Complex.abs (ψ2 p) ^ 2 + g12 * Complex.abs (ψ1 p) ^ 2 - mu2 : ℝ) : ℂ)))

/-- Atom number of a spatial field: `dx · dy · ∑ |ψ|²` (source lines 62-63,
91-92). -/
def atom_num {n m : ℕ} (ψ : Field2 n m ℂ) : ℝ :=
  dx * dy * ∑ p : Fin n × Fin m, Complex.abs (ψ p) ^ 2

/-- The renormalisation rescaling of source lines 93-94:
`√(original atom number) · ψ / √(current atom number)`, pointwise. -/
def renorm_field {n m : ℕ} (N0 : ℝ) (ψ : Field2 n m ℂ) : Field2 n m ℂ :=
  fun p => (Real.sqrt N0 : ℂ) * ψ p / (Real.sqrt (atom_num ψ) : ℂ)

/-- The phase-fixing operation of source lines 99-100:
`ψ *= exp(i·θ) / exp(i·angle(ψ))`, pointwise. -/
def fix_phase {n m : ℕ} (θ : Field2 n m ℝ) (ψ : Field2 n m ℂ) : Field2 n m ℂ :=
  fun p => ψ p * (Complex.exp (Complex.I * θ p) /
    Complex.exp (Complex.I * Complex.arg (ψ p)))

/-- The pair of conjugate-space component fields evolved by the two loops. -/
structure PairState (n m : ℕ) where
  psi1k : Field2 n m ℂ
  psi2k : Field2 n m ℂ

/-- One iteration of the imaginary-time relaxation loop, a direct
transcription of source lines 73-102: kinetic step on both components,
transform to spatial, coupled potential step, transform back, kinetic step,
renormalisation, phase fixing.  `N01`, `N02` are the initial atom numbers
(source lines 62-63) and `θ1`, `θ2` the recorded lock phases (lines 66-67). -/
def relax_iter {n m : ℕ} (dt g1 g2 g12 mu1 mu2 : ℝ) (Kx Ky : Field2 n m ℝ)
    (N01 N02 : ℝ) (θ1 θ2 : Field2 n m ℝ) (s : PairState n m) : PairState n m :=
  let a1 := kinetic_evolution s.psi1k (-Complex.I * dt) Kx Ky
  let a2 := kinetic_evolution s.psi2k (-Complex.I * dt) Kx Ky
  let p1 := ifft2 a1
  let p2 := ifft2 a2
  let q := potential_evolution p1 p2 (-Complex.I * dt) g1 g2 g12 mu1 mu2
  let q1k := fft2 q.1
  let q2k := fft2 q.2
  let r1k := kinetic_evolution q1k (-Complex.I * dt) Kx Ky
  let r2k := kinetic_evolution q2k (-Complex.I * dt) Kx Ky
  let s1k := fft2 (renorm_field N01 (ifft2 r1k))
  let s2k := fft2 (renorm_field N02 (ifft2 r2k))
  ⟨fft2 (fix_phase θ1 (ifft2 s1k)), fft2 (fix_phase θ2 (ifft2 s2k))⟩

/-- The imaginary-time relaxation: 2000 iterations of `relax_iter`
(source line 72, `for i in range(2000)`). -/
def relax {n m : ℕ} (dt g1 g2 g12 mu1 mu2 : ℝ) (Kx Ky : Field2 n m ℝ)
    (N01 N02 : ℝ) (θ1 θ2 : Field2 n m ℝ) : PairState n m → PairState n m :=
  (relax_iter dt g1 g2 g12 mu1 mu2 Kx Ky N01 N02 θ1 θ2)^[2000]

/-- Stage view: kinetic evolution of both components in the conjugate
representation. -/
def kinetic_stage {n m : ℕ} (step : ℂ) (Kx Ky : Field2 n m ℝ)
    (s : PairState n m) : PairState n m :=
  ⟨kinetic_evolution s.psi1k step Kx Ky, kinetic_evolution s.psi2k step Kx Ky⟩

/-- Stage view: transform both components to the spatial representation,
apply the coupled potential step, transform back. -/
def potential_stage {n m : ℕ} (step : ℂ) (g1 g2 g12 mu1 mu2 : ℝ)
    (s : PairState n m) : PairState n m :=
  let q := potential_evolution (ifft2 s.psi1k) (ifft2 s.psi2k) step g1 g2 g12 mu1 mu2
  ⟨fft2 q.1, fft2 q.2⟩

/-- Stage view: renormalise both components to the initial atom numbers. -/
def renorm_stage {n m : ℕ} (N01 N02 : ℝ) (s : PairState n m) : PairState n m :=
  ⟨fft2 (renorm_field N01 (ifft2 s.psi1k)), fft2 (renorm_field N02 (ifft2 s.psi2k))⟩

/-- Stage view: lock both components to the recorded initial phases. -/
def phase_stage {n m : ℕ} (θ1 θ2 : Field2 n m ℝ) (s : PairState n m) : PairState n m :=
  ⟨fft2 (fix_phase θ1 (ifft2 s.psi1k)), fft2 (fix_phase θ2 (ifft2 s.psi2k))⟩

/-- The zero pair state; on it the renormalisation divisor (the current atom
number) vanishes. -/
def zeroPair {n m : ℕ} : PairState n m := ⟨zeroField, zeroField⟩

/-- State of the real-time evolution loop: both conjugate-space components,
the snapshot index `save_index` (source line 42), the two growable
wavefunction datasets as lists of spatial slices, and the record of step
indices at which a snapshot was appended (an observer of the save branch,
used only in theorem statements). -/
structure RTState (n m : ℕ) where
  psi1k : Field2 n m ℂ
  psi2k : Field2 n m ℂ
  save_index : ℕ
  store1 : List (Field2 n m ℂ)
  store2 : List (Field2 n m ℂ)
  saves : List ℕ

/-- h5py-style dataset resize along the growable axis: truncate or pad with
the zero fill value to exactly `k` slices. -/
def resize_to {α : Type} (l : List α) (k : ℕ) (z : α) : List α :=
  l.take k ++ List.replicate (k - l.length) z

/-- The save branch (source lines 150-158) with an explicit failure oracle
for its six fallible storage operations, in program order: open the file,
resize `psi_1`, resize `psi_2`, write the `psi_1` slice, write the `psi_2`
slice, close (flush) the file.  Only after all six succeed is `save_index`
incremented (source line 158, outside the `with` block).  A failing
operation raises before mutating, and the run terminates carrying the store
state at that moment. -/
def save_snapshot {n m : ℕ} (failO : Fin 6 → Bool) (i : ℕ) (s : RTState n m) :
    Except (RTState n m) (RTState n m) :=
  if failO 0 then .error s else
  if failO 1 then .error s else
  let s1 : RTState n m := { s with store1 := resize_to s.store1 (s.save_index + 1) zeroField }
  if failO 2 then .error s1 else
  let s2 : RTState n m := { s1 with store2 := resize_to s1.store2 (s.save_index + 1) zeroField }
  if failO 3 then .error s2 else
  let s3 : RTState n m := { s2 with store1 := s2.store1.set s.save_index (ifft2 s.psi1k) }
  if failO 4 then .error s3 else
  let s4 : RTState n m := { s3 with store2 := s3.store2.set s.save_index (ifft2 s.psi2k) }
  if failO 5 then .error s4 else
  .ok { s4 with save_index := s.save_index + 1, saves := s.saves ++ [i] }

/-- The field-evolution part of one real-time step (source lines 132-147):
kinetic step, transform to spatial, coupled potential step, transform back,
kinetic step, all with the real step `dt`; the storage-related state is
untouched. -/
def rt_evolve {n m : ℕ} (dt g1 g2 g12 mu1 mu2 : ℝ) (Kx Ky : Field2 n m ℝ)
    (s : RTState n m) : RTState n m :=
  let a1 := kinetic_evolution s.psi1k (dt : ℂ) Kx Ky
  let a2 := kinetic_evolution s.psi2k (dt : ℂ) Kx Ky
  let q := potential_evolution (ifft2 a1) (ifft2 a2) (dt : ℂ) g1 g2 g12 mu1 mu2
  let c1 := kinetic_evolution (fft2 q.1) (dt : ℂ) Kx Ky
  let c2 := kinetic_evolution (fft2 q.2) (dt : ℂ) Kx Ky
  { s with psi1k := c1, psi2k := c2 }

/-- One step of the real-time evolution loop (source lines 131-158): the
field evolution, then the save branch exactly when
`(i + 1) mod Nframe == 0`. -/
def rt_step {n m : ℕ} (failO : ℕ → Fin 6 → Bool) (dt g1 g2 g12 mu1 mu2 : ℝ)
    (Kx Ky : Field2 n m ℝ) (Nframe : ℕ) (i : ℕ) (s : RTState n m) :
    Except (RTState n m) (RTState n m) :=
  if (i + 1) % Nframe = 0 then
    save_snapshot (failO i) i (rt_evolve dt g1 g2 g12 mu1 mu2 Kx Ky s)
  else .ok (rt_evolve dt g1 g2 g12 mu1 mu2 Kx Ky s)

/-- The real-time loop from step index `i`, for `k` further steps; a raised
storage exception terminates the run immediately. -/
def rt_loop {n m : ℕ} (failO : ℕ → Fin 6 → Bool) (dt g1 g2 g12 mu1 mu2 : ℝ)
    (Kx Ky : Field2 n m ℝ) (Nframe : ℕ) :
    ℕ → ℕ → RTState n m → Except (RTState n m) (RTState n m)
  | _, 0, s => .ok s
  | i, k + 1, s =>
    match rt_step failO dt g1 g2 g12 mu1 mu2 Kx Ky Nframe i s with
    | .ok s' => rt_loop failO dt g1 g2 g12 mu1 mu2 Kx Ky Nframe (i + 1) k s'
    | .error e => .error e

/-- The full real-time evolution over `Nt` steps (source line 131,
`for i in range(Nt)`). -/
def real_time_evolution {n m : ℕ} (failO : ℕ → Fin 6 → Bool)
    (dt g1 g2 g12 mu1 mu2 : ℝ) (Kx Ky : Field2 n m ℝ) (Nframe Nt : ℕ)
    (s : RTState n m) : Except (RTState n m) (RTState n m) :=
  rt_loop failO dt g1 g2 g12 mu1 mu2 Kx Ky Nframe 0 Nt s

/-- The state entering real-time evolution: relaxed components,
`save_index = 0` (source line 42), both wavefunction datasets freshly
created with third dimension 1 holding a single all-zero placeholder slice
(source lines 121-122), and no snapshots recorded yet. -/
def rt_start {n m : ℕ} (ψ1k ψ2k : Field2 n m ℂ) : RTState n m :=
  ⟨ψ1k, ψ2k, 0, [zeroField], [zeroField], []⟩

/-- Failure oracle of a fault-free run: no storage operation fails. -/
def noFail : ℕ → Fin 6 → Bool := fun _ _ => false

/-- Background density `n0 = 1` (source line 48). -/
def n0 {n m : ℕ} : Field2 n m ℝ := fun _ => 1

/-- Initial first component `ψ1 = √(n0/2) · exp(i·θ)` (source line 56); the
phase field `θ` produced by `get_phase` (module `include/phaseImprinting.py`,
not in the repository snapshot) is an opaque parameter. -/
def psi_1_init {n m : ℕ} (θ : Field2 n m ℝ) : Field2 n m ℂ :=
  fun p => (Real.sqrt (n0 p / 2) : ℂ) * Complex.exp (Complex.I * θ p)

/-- Initial second component `ψ2 = √(n0/2)` (source line 57). -/
def psi_2_init {n m : ℕ} : Field2 n m ℂ := fun p => (Real.sqrt (n0 p / 2) : ℂ)

/-- Lock phase of the second component, `θ_fix_2 = angle(ψ2)` (source
line 67). -/
def theta_fix_2 {n m : ℕ} : Field2 n m ℝ := fun p => Complex.arg (psi_2_init p)

/-- C1: the potential step returns
`ψ1' = ψ1 · exp(−i·step·(g1|ψ1|² + g12|ψ2|² − mu_1))` and
`ψ2' = ψ2 · exp(−i·step·(g2|ψ2|² + g12|ψ1|² − mu_2))`, pointwise, with both
phase factors computed from the input (pre-step) densities, so swapping the
order in which the two components are updated only swaps the result pair. -/
theorem potential_step_simultaneity_c1 {n m : ℕ} (ψ1 ψ2 : Field2 n m ℂ)
    (step : ℂ) (g1 g2 g12 mu1 mu2 : ℝ) :
    (potential_evolution ψ1 ψ2 step g1 g2 g12 mu1 mu2).1
        = (fun p => ψ1 p * Complex.exp (-Complex.I * step *
            ((g1 * Complex.abs (ψ1 p) ^ 2 + g12 * Complex.abs (ψ2 p) ^ 2 - mu1 : ℝ) : ℂ))) ∧
    (potential_evolution ψ1 ψ2 step g1 g2 g12 mu1 mu2).2
        = (fun p => ψ2 p * Complex.exp (-Complex.I * step *
            ((g2 * Complex.abs (ψ2 p) ^ 2 + g12 * Complex.abs (ψ1 p) ^ 2 - mu2 : ℝ) : ℂ))) ∧
    potential_evolution ψ2 ψ1 step g2 g1 g12 mu2 mu1
        = ((potential_evolution ψ1 ψ2 step g1 g2 g12 mu1 mu2).2,
           (potential_evolution ψ1 ψ2 step g1 g2 g12 mu1 mu2).1) :=
  ⟨rfl, rfl, rfl⟩

/-- C4: renormalisation restores the atom number: for every non-zero spatial
field, rescaling by `√(original atom number) / √(current atom number)` makes
the recomputed atom number `dx·dy·∑|ψ|²` equal to the original (non-negative)
atom number. -/
theorem renorm_atom_num_c4 {n m : ℕ} (N0 : ℝ) (hN0 : 0 ≤ N0)
    (ψ : Field2 n m ℂ) (hψ : ψ ≠ 0) :
    atom_num (renorm_field N0 ψ) = N0 := by
  have hex : ∃ p, ψ p ≠ 0 := by
    by_contra h
    push_neg at h
    exact hψ (funext fun p => h p)
  have hA : 0 < atom_num ψ := by
    obtain ⟨p₀, hp₀⟩ := hex
    have h1 : (0 : ℝ) < ∑ p : Fin n × Fin m, Complex.abs (ψ p) ^ 2 :=
      Finset.sum_pos' (fun i _ => by positivity)
        ⟨p₀, Finset.mem_univ _, pow_pos (Complex.abs.pos hp₀) 2⟩
    simpa [atom_num, dx, dy] using h1
  have key : ∀ p : Fin n × Fin m,
      Complex.abs ((Real.sqrt N0 : ℂ) * ψ p / (Real.sqrt (atom_num ψ) : ℂ)) ^ 2
        = N0 / atom_num ψ * Complex.abs (ψ p) ^ 2 := by
    intro p
    rw [map_div₀, map_mul, Complex.abs_ofReal, Complex.abs_ofReal,
      abs_of_nonneg (Real.sqrt_nonneg N0), abs_of_nonneg (Real.sqrt_nonneg (atom_num ψ)),
      div_pow, mul_pow, Real.sq_sqrt hN0, Real.sq_sqrt hA.le]
    ring
  have hsum : ∑ p : Fin n × Fin m, Complex.abs (ψ p) ^ 2 = atom_num ψ := by
    simp [atom_num, dx, dy]
  calc atom_num (renorm_field N0 ψ)
      = dx * dy * ∑ p : Fin n × Fin m,
          Complex.abs ((Real.sqrt N0 : ℂ) * ψ p / (Real.sqrt (atom_num ψ) : ℂ)) ^ 2 := rfl
    _ = ∑ p : Fin n × Fin m, N0 / atom_num ψ * Complex.abs (ψ p) ^ 2 := by
        simp only [key, dx, dy, one_mul]
    _ = N0 / atom_num ψ * atom_num ψ := by rw [← Finset.mul_sum, hsum]
    _ = N0 := div_mul_cancel₀ N0 hA.ne'

/-- Witness for C4 at a concrete input: the constant field `2` on a `1 × 1`
grid is non-zero, and renormalising it to atom number `1` indeed yields atom
number `1`. -/
theorem renorm_atom_num_c4_witness :
    ((0 : ℝ) ≤ 1 ∧ (fun _ => (2 : ℂ) : Field2 1 1 ℂ) ≠ 0) ∧
      atom_num (renorm_field 1 (fun _ => (2 : ℂ) : Field2 1 1 ℂ)) = 1 := by
  have hne : (fun _ => (2 : ℂ) : Field2 1 1 ℂ) ≠ 0 := by
    intro h
    have h2 := congrFun h ((0 : Fin 1), (0 : Fin 1))
    norm_num [Pi.zero_apply] at h2
  exact ⟨⟨by norm_num, hne⟩, renorm_atom_num_c4 1 (by norm_num) _ hne⟩

/-- C5 counterexample: the claim quantifies over every complex field, but on
the zero field the phase-locked value is `0`, whose angle is `0`, not the
requested lock phase `π` (and `0 ≠ π` mod `2π`). -/
theorem fix_phase_angle_c5_counterexample :
    ¬ ((Complex.arg (fix_phase (fun _ => Real.pi) (zeroField : Field2 1 1 ℂ)
          ((0 : Fin 1), (0 : Fin 1))) : Real.Angle)
        = ((Real.pi : ℝ) : Real.Angle)) := by
  have hz : fix_phase (fun _ => Real.pi) (zeroField : Field2 1 1 ℂ)
      ((0 : Fin 1), (0 : Fin 1)) = 0 := by
    simp [fix_phase, zeroField]
  rw [hz, Complex.arg_zero, Real.Angle.coe_zero]
  exact (Real.Angle.pi_ne_zero).symm

/-- C5 (amended): phase locking leaves the pointwise magnitude unchanged for
every field, and at every point where the field is non-zero the resulting
angle equals the lock phase `θ_fixed` modulo `2π`; at a zero of the field the
value stays `0`, whose angle is `0` rather than `θ_fixed`. -/
theorem fix_phase_c5 {n m : ℕ} (θ : Field2 n m ℝ) (ψ : Field2 n m ℂ)
    (p : Fin n × Fin m) :
    Complex.abs (fix_phase θ ψ p) = Complex.abs (ψ p) ∧
    (ψ p ≠ 0 → (Complex.arg (fix_phase θ ψ p) : Real.Angle) = (θ p : Real.Angle)) := by
  constructor
  · unfold fix_phase
    rw [map_mul, map_div₀,
      mul_comm Complex.I ((θ p : ℝ) : ℂ),
      mul_comm Complex.I ((Complex.arg (ψ p) : ℝ) : ℂ),
      Complex.abs_exp_ofReal_mul_I, Complex.abs_exp_ofReal_mul_I]
    simp
  · intro hp
    have habs := Complex.abs_mul_exp_arg_mul_I (ψ p)
    have hexp : Complex.exp ((Complex.arg (ψ p) : ℂ) * Complex.I) ≠ 0 :=
      Complex.exp_ne_zero _
    have hrw : fix_phase θ ψ p
        = ((Complex.abs (ψ p) : ℝ) : ℂ) * Complex.exp ((θ p : ℂ) * Complex.I) := by
      unfold fix_phase
      rw [mul_comm Complex.I ((θ p : ℝ) : ℂ),
        mul_comm Complex.I ((Complex.arg (ψ p) : ℝ) : ℂ),
        mul_div_assoc', div_eq_iff hexp, mul_right_comm, habs]
    rw [hrw, Complex.arg_real_mul _ (Complex.abs.pos hp), Complex.arg_exp_mul_I]
    exact Real.Angle.coe_toIocMod _ _

/-- Witness for C5 at a concrete input: the constant field `1` is non-zero at
the origin of a `1 × 1` grid, and locking it to the zero phase yields angle
`0`. -/
theorem fix_phase_c5_witness :
    (1 : ℂ) ≠ 0 ∧
    (Complex.arg (fix_phase (fun _ => (0 : ℝ)) (fun _ => (1 : ℂ))
        ((0 : Fin 1), (0 : Fin 1))) : Real.Angle) = ((0 : ℝ) : Real.Angle) :=
  ⟨one_ne_zero,
    (fix_phase_c5 (fun _ => (0 : ℝ)) (fun _ => (1 : ℂ))
      ((0 : Fin 1), (0 : Fin 1))).2 one_ne_zero⟩

/-- C9: the vortex phase `θ` enters only the first component's initial state;
the second component is initialised to the real, non-negative field
`√(n0/2)`, its recorded lock phase `θ_fix_2` is identically zero, and
phase-locking any field to `θ_fix_2` produces a pointwise real, non-negative
field. -/
theorem component_two_real_c9 {n m : ℕ} :
    (∀ θ : Field2 n m ℝ, ∀ p, psi_1_init θ p
        = (Real.sqrt (n0 p / 2) : ℂ) * Complex.exp (Complex.I * θ p)) ∧
    (∀ p : Fin n × Fin m, (psi_2_init p).im = 0 ∧ 0 ≤ (psi_2_init p).re) ∧
    (∀ p : Fin n × Fin m, theta_fix_2 p = 0) ∧
    (∀ (ψ : Field2 n m ℂ) (p : Fin n × Fin m),
      (fix_phase theta_fix_2 ψ p).im = 0 ∧ 0 ≤ (fix_phase theta_fix_2 ψ p).re) := by
  have hθ0 : ∀ p : Fin n × Fin m, theta_fix_2 p = 0 :=
    fun p => Complex.arg_ofReal_of_nonneg (Real.sqrt_nonneg _)
  refine ⟨fun θ p => rfl, fun p => ⟨?_, ?_⟩, hθ0, fun ψ p => ?_⟩
  · simp [psi_2_init]
  · simp only [psi_2_init, Complex.ofReal_re]
    exact Real.sqrt_nonneg _
  · have hval : fix_phase theta_fix_2 ψ p = ((Complex.abs (ψ p) : ℝ) : ℂ) := by
      unfold fix_phase
      rw [hθ0 p, Complex.ofReal_zero, mul_zero, Complex.exp_zero,
        mul_comm Complex.I ((Complex.arg (ψ p) : ℝ) : ℂ), mul_one_div,
        div_eq_iff (Complex.exp_ne_zero _)]
      exact (Complex.abs_mul_exp_arg_mul_I (ψ p)).symm
    rw [hval]
    exact ⟨Complex.ofReal_im _, by
      rw [Complex.ofReal_re]; exact Complex.abs.nonneg _⟩

/-- C2: the ground-state relaxation performs exactly 2000 iterations, and
each iteration is, in order: kinetic step with imaginary-time step `−i·dt`
on both components in the conjugate representation, transform to spatial,
one full potential step with the same `−i·dt`, transform back, the second
kinetic step, then renormalisation and phase locking — the symmetric
kinetic–potential–kinetic (Strang) ordering. -/
theorem relax_strang_c2 {n m : ℕ} (dt g1 g2 g12 mu1 mu2 : ℝ)
    (Kx Ky : Field2 n m ℝ) (N01 N02 : ℝ) (θ1 θ2 : Field2 n m ℝ)
    (s : PairState n m) :
    relax dt g1 g2 g12 mu1 mu2 Kx Ky N01 N02 θ1 θ2 s
      = (fun t => phase_stage θ1 θ2 (renorm_stage N01 N02
          (kinetic_stage (-Complex.I * dt) Kx Ky
            (potential_stage (-Complex.I * dt) g1 g2 g12 mu1 mu2
              (kinetic_stage (-Complex.I * dt) Kx Ky t)))))^[2000] s :=
  rfl

/-- The kinetic propagator maps the zero field to the zero field. -/
lemma kinetic_evolution_zero {n m : ℕ} (step : ℂ) (Kx Ky : Field2 n m ℝ) :
    kinetic_evolution (zeroField : Field2 n m ℂ) step Kx Ky = zeroField :=
  funext fun _ => zero_mul _

/-- The forward transform maps the zero field to the zero field. -/
lemma fft2_zero {n m : ℕ} : fft2 (zeroField : Field2 n m ℂ) = zeroField := by
  funext k
  simp [fft2, zeroField]

/-- The inverse transform maps the zero field to the zero field. -/
lemma ifft2_zero {n m : ℕ} : ifft2 (zeroField : Field2 n m ℂ) = zeroField := by
  funext x
  simp [ifft2, zeroField]

/-- The potential step maps the zero pair to the zero pair. -/
lemma potential_evolution_zero {n m : ℕ} (step : ℂ) (g1 g2 g12 mu1 mu2 : ℝ) :
    potential_evolution (zeroField : Field2 n m ℂ) zeroField step g1 g2 g12 mu1 mu2
      = (zeroField, zeroField) := by
  unfold potential_evolution
  exact Prod.ext (funext fun _ => zero_mul _) (funext fun _ => zero_mul _)

/-- The zero field has atom number zero. -/
lemma atom_num_zero {n m : ℕ} : atom_num (zeroField : Field2 n m ℂ) = 0 := by
  simp [atom_num, zeroField]

/-- Renormalisation maps the zero field to the zero field (the division by
the vanishing current atom number yields zero in the real-number model). -/
lemma renorm_field_zero {n m : ℕ} (N0 : ℝ) :
    renorm_field N0 (zeroField : Field2 n m ℂ) = zeroField := by
  funext p
  simp [renorm_field, zeroField]

/-- Phase locking maps the zero field to the zero field. -/
lemma fix_phase_zero {n m : ℕ} (θ : Field2 n m ℝ) :
    fix_phase θ (zeroField : Field2 n m ℂ) = zeroField :=
  funext fun _ => zero_mul _

/-- One relaxation iteration fixes the zero pair state. -/
lemma relax_iter_zeroPair {n m : ℕ} (dt g1 g2 g12 mu1 mu2 : ℝ)
    (Kx Ky : Field2 n m ℝ) (N01 N02 : ℝ) (θ1 θ2 : Field2 n m ℝ) :
    relax_iter dt g1 g2 g12 mu1 mu2 Kx Ky N01 N02 θ1 θ2 (zeroPair : PairState n m)
      = zeroPair := by
  unfold relax_iter zeroPair
  simp only [kinetic_evolution_zero, ifft2_zero, fft2_zero,
    potential_evolution_zero, renorm_field_zero, fix_phase_zero]

/-- C7 counterexample: on the zero state the renormalisation divisor (the
recomputed atom number after the kinetic–potential–kinetic sweep of the
first iteration) is `0`, yet the relaxation does not stop: the next
iteration still executes and produces a defined state. -/
theorem relax_no_abort_c7_counterexample :
    atom_num (ifft2 ((kinetic_stage (-Complex.I * ((1 : ℝ)/100)) (fun _ => 0) (fun _ => 0)
        (potential_stage (-Complex.I * ((1 : ℝ)/100)) 4 4 3 1 1
          (kinetic_stage (-Complex.I * ((1 : ℝ)/100)) (fun _ => 0) (fun _ => 0)
            (zeroPair : PairState 1 1))))).psi1k) = 0 ∧
    relax_iter ((1 : ℝ)/100) 4 4 3 1 1 (fun _ => 0) (fun _ => 0) 1 1
        (fun _ => 0) (fun _ => 0)
      (relax_iter ((1 : ℝ)/100) 4 4 3 1 1 (fun _ => 0) (fun _ => 0) 1 1
        (fun _ => 0) (fun _ => 0) (zeroPair : PairState 1 1)) = zeroPair := by
  constructor
  · unfold kinetic_stage potential_stage zeroPair
    simp only [kinetic_evolution_zero, ifft2_zero, fft2_zero,
      potential_evolution_zero, atom_num_zero]
  · rw [relax_iter_zeroPair, relax_iter_zeroPair]

/-- C7 (amended): the renormalisation code performs no zero or
divergence check.  On a state whose recomputed atom number is zero the
division is still carried out (in the real-number model it yields the zero
field) and the relaxation loop executes all 2000 iterations and returns a
defined state. -/
theorem relax_no_abort_c7 {n m : ℕ} (dt g1 g2 g12 mu1 mu2 : ℝ)
    (Kx Ky : Field2 n m ℝ) (N01 N02 : ℝ) (θ1 θ2 : Field2 n m ℝ) :
    atom_num (ifft2 ((kinetic_stage (-Complex.I * dt) Kx Ky
        (potential_stage (-Complex.I * dt) g1 g2 g12 mu1 mu2
          (kinetic_stage (-Complex.I * dt) Kx Ky
            (zeroPair : PairState n m))))).psi1k) = 0 ∧
    relax dt g1 g2 g12 mu1 mu2 Kx Ky N01 N02 θ1 θ2 (zeroPair : PairState n m)
      = zeroPair := by
  constructor
  · unfold kinetic_stage potential_stage zeroPair
    simp only [kinetic_evolution_zero, ifft2_zero, fft2_zero,
      potential_evolution_zero, atom_num_zero]
  · exact Function.iterate_fixed
      (relax_iter_zeroPair dt g1 g2 g12 mu1 mu2 Kx Ky N01 N02 θ1 θ2) 2000

/-- The Fourier kernel is additive in its argument. -/
lemma eKer_add (N : ℕ) (a b : ℤ) : eKer N (a + b) = eKer N a * eKer N b := by
  unfold eKer
  rw [← Complex.exp_add]
  congr 1
  push_cast
  ring

/-- Conjugating the Fourier kernel negates its argument. -/
lemma eKer_conj (N : ℕ) (a : ℤ) : (starRingEnd ℂ) (eKer N a) = eKer N (-a) := by
  unfold eKer
  rw [← Complex.exp_conj]
  congr 1
  simp only [map_div₀, map_mul, map_ofNat, Complex.conj_ofReal, Complex.conj_I,
    map_intCast, map_natCast]
  push_cast
  ring

/-- Character orthogonality: `∑ x < N, exp(2πi·d·x/N)` equals `N` when
`N ∣ d` and `0` otherwise. -/
lemma eKer_geom_sum (N : ℕ) (d : ℤ) :
    ∑ x : Fin N, eKer N (d * x.val) = if (N : ℤ) ∣ d then (N : ℂ) else 0 := by
  rcases Nat.eq_zero_or_pos N with hN | hN
  · subst hN
    rw [Finset.univ_eq_empty, Finset.sum_empty]
    split <;> simp
  · have hNC : (N : ℂ) ≠ 0 := Nat.cast_ne_zero.mpr hN.ne'
    have hpow : ∀ x : Fin N, eKer N (d * x.val) = eKer N d ^ x.val := by
      intro x
      unfold eKer
      rw [← Complex.exp_nat_mul]
      congr 1
      push_cast
      ring
    simp_rw [hpow]
    rw [Fin.sum_univ_eq_sum_range (fun i => eKer N d ^ i) N]
    by_cases hdvd : (N : ℤ) ∣ d
    · obtain ⟨c, rfl⟩ := hdvd
      have hω : eKer N ((N : ℤ) * c) = 1 := by
        unfold eKer
        have harg : 2 * (Real.pi : ℂ) * Complex.I * (((N : ℤ) * c : ℤ) : ℂ) / ((N : ℕ) : ℂ)
            = ((c : ℤ) : ℂ) * (2 * (Real.pi : ℂ) * Complex.I) := by
          push_cast
          field_simp
          ring
        rw [harg]
        exact Complex.exp_int_mul_two_pi_mul_I c
      rw [if_pos (dvd_mul_right _ _)]
      simp [hω]
    · have hωN : eKer N d ^ N = 1 := by
        unfold eKer
        rw [← Complex.exp_nat_mul]
        have harg : ((N : ℕ) : ℂ) * (2 * (Real.pi : ℂ) * Complex.I * ((d : ℤ) : ℂ) / ((N : ℕ) : ℂ))
            = ((d : ℤ) : ℂ) * (2 * (Real.pi : ℂ) * Complex.I) := by
          field_simp
          ring
        rw [harg]
        exact Complex.exp_int_mul_two_pi_mul_I d
      have hω1 : eKer N d ≠ 1 := by
        intro h
        unfold eKer at h
        rw [Complex.exp_eq_one_iff] at h
        obtain ⟨k, hk⟩ := h
        have h2πI : (2 * (Real.pi : ℂ) * Complex.I) ≠ 0 :=
          mul_ne_zero (mul_ne_zero two_ne_zero
            (Complex.ofReal_ne_zero.mpr Real.pi_ne_zero)) Complex.I_ne_zero
        have h1 : (2 * (Real.pi : ℂ) * Complex.I) * (((d : ℤ) : ℂ) / ((N : ℕ) : ℂ))
            = (2 * (Real.pi : ℂ) * Complex.I) * ((k : ℤ) : ℂ) := by
          calc (2 * (Real.pi : ℂ) * Complex.I) * (((d : ℤ) : ℂ) / ((N : ℕ) : ℂ))
              = 2 * (Real.pi : ℂ) * Complex.I * ((d : ℤ) : ℂ) / ((N : ℕ) : ℂ) := by ring
            _ = ((k : ℤ) : ℂ) * (2 * (Real.pi : ℂ) * Complex.I) := hk
            _ = (2 * (Real.pi : ℂ) * Complex.I) * ((k : ℤ) : ℂ) := by ring
        have h2 := mul_left_cancel₀ h2πI h1
        rw [div_eq_iff hNC] at h2
        have hzd : d = k * N := by exact_mod_cast h2
        exact hdvd ⟨k, by rw [hzd]; ring⟩
      rw [geom_sum_eq hω1 N, hωN, if_neg hdvd]
      simp

/-- 2-D character orthogonality over the product grid. -/
lemma eKer_sum_prod {n m : ℕ} (d1 d2 : ℤ) :
    ∑ x : Fin n × Fin m, eKer n (d1 * x.1.val) * eKer m (d2 * x.2.val)
      = (if (n : ℤ) ∣ d1 then (n : ℂ) else 0) * (if (m : ℤ) ∣ d2 then (m : ℂ) else 0) := by
  rw [← eKer_geom_sum n d1, ← eKer_geom_sum m d2, Fintype.sum_mul_sum]
  exact Fintype.sum_prod_type _

/-- For grid indices below `N`, `N` divides the index difference iff the
indices are equal. -/
lemma fin_dvd_sub_iff {N : ℕ} (a b : Fin N) :
    ((N : ℤ) ∣ ((a.val : ℤ) - (b.val : ℤ))) ↔ a = b := by
  constructor
  · intro h
    have ha := a.isLt
    have hb := b.isLt
    have hlt : |((a.val : ℤ) - (b.val : ℤ))| < (N : ℤ) := by
      rw [abs_lt]
      omega
    have h0 := Int.eq_zero_of_abs_lt_dvd h hlt
    have hv : a.val = b.val := by omega
    exact Fin.ext hv
  · rintro rfl
    simp

/-- Parseval identity for the inverse transform: the spatial sum of the
squared modulus is `(n·m)⁻¹` times the conjugate-space sum. -/
lemma sum_normSq_ifft2 {n m : ℕ} (hn : 0 < n) (hm : 0 < m) (F : Field2 n m ℂ) :
    ∑ x : Fin n × Fin m, Complex.normSq (ifft2 F x)
      = ((n * m : ℕ) : ℝ)⁻¹ * ∑ k : Fin n × Fin m, Complex.normSq (F k) := by
  classical
  have hnm : ((n * m : ℕ) : ℂ) ≠ 0 :=
    Nat.cast_ne_zero.mpr (Nat.mul_ne_zero hn.ne' hm.ne')
  have hnC : (n : ℂ) ≠ 0 := Nat.cast_ne_zero.mpr hn.ne'
  have hmC : (m : ℂ) ≠ 0 := Nat.cast_ne_zero.mpr hm.ne'
  have expand : ∀ x : Fin n × Fin m,
      ifft2 F x * (starRingEnd ℂ) (ifft2 F x)
        = ((n * m : ℕ) : ℂ)⁻¹ * ((n * m : ℕ) : ℂ)⁻¹ *
            ∑ k : Fin n × Fin m, ∑ l : Fin n × Fin m,
              F k * (starRingEnd ℂ) (F l)
                * eKer n (((k.1.val : ℤ) - (l.1.val : ℤ)) * x.1.val)
                * eKer m (((k.2.val : ℤ) - (l.2.val : ℤ)) * x.2.val) := by
    intro x
    unfold ifft2
    rw [map_mul, map_inv₀, map_natCast, map_sum, mul_mul_mul_comm]
    congr 1
    rw [Finset.sum_mul_sum]
    refine Finset.sum_congr rfl fun k _ => Finset.sum_congr rfl fun l _ => ?_
    have e1 : eKer n ((k.1.val : ℤ) * x.1.val) * eKer n (-((l.1.val : ℤ) * x.1.val))
        = eKer n (((k.1.val : ℤ) - (l.1.val : ℤ)) * x.1.val) := by
      rw [← eKer_add]
      congr 1
      ring
    have e2 : eKer m ((k.2.val : ℤ) * x.2.val) * eKer m (-((l.2.val : ℤ) * x.2.val))
        = eKer m (((k.2.val : ℤ) - (l.2.val : ℤ)) * x.2.val) := by
      rw [← eKer_add]
      congr 1
      ring
    rw [map_mul, map_mul, eKer_conj, eKer_conj, ← e1, ← e2]
    ring
  have inner : ∀ k l : Fin n × Fin m,
      ∑ x : Fin n × Fin m,
          F k * (starRingEnd ℂ) (F l)
            * eKer n (((k.1.val : ℤ) - (l.1.val : ℤ)) * x.1.val)
            * eKer m (((k.2.val : ℤ) - (l.2.val : ℤ)) * x.2.val)
        = if l = k then F k * (starRingEnd ℂ) (F k) * ((n * m : ℕ) : ℂ) else 0 := by
    intro k l
    have step1 : ∑ x : Fin n × Fin m,
        F k * (starRingEnd ℂ) (F l)
          * eKer n (((k.1.val : ℤ) - (l.1.val : ℤ)) * x.1.val)
          * eKer m (((k.2.val : ℤ) - (l.2.val : ℤ)) * x.2.val)
        = F k * (starRingEnd ℂ) (F l) * ∑ x : Fin n × Fin m,
            eKer n (((k.1.val : ℤ) - (l.1.val : ℤ)) * x.1.val)
              * eKer m (((k.2.val : ℤ) - (l.2.val : ℤ)) * x.2.val) := by
      rw [Finset.mul_sum]
      exact Finset.sum_congr rfl fun x _ => by ring
    rw [step1, eKer_sum_prod]
    rcases eq_or_ne l k with rfl | hlk
    · rw [if_pos rfl, if_pos ((fin_dvd_sub_iff l.1 l.1).mpr rfl),
        if_pos ((fin_dvd_sub_iff l.2 l.2).mpr rfl)]
      push_cast
      ring
    · rw [if_neg hlk]
      have hne : k.1 ≠ l.1 ∨ k.2 ≠ l.2 := by
        by_contra hc
        push_neg at hc
        exact hlk (Prod.ext hc.1.symm hc.2.symm)
      rcases hne with h | h
      · rw [if_neg fun hd => h ((fin_dvd_sub_iff k.1 l.1).mp hd)]
        ring
      · rw [if_neg fun hd => h ((fin_dvd_sub_iff k.2 l.2).mp hd)]
        ring
  have sumx : ∑ x : Fin n × Fin m, ifft2 F x * (starRingEnd ℂ) (ifft2 F x)
      = ((n * m : ℕ) : ℂ)⁻¹ * ∑ k : Fin n × Fin m, F k * (starRingEnd ℂ) (F k) := by
    calc ∑ x : Fin n × Fin m, ifft2 F x * (starRingEnd ℂ) (ifft2 F x)
        = ∑ x : Fin n × Fin m, (((n * m : ℕ) : ℂ)⁻¹ * ((n * m : ℕ) : ℂ)⁻¹ *
            ∑ k : Fin n × Fin m, ∑ l : Fin n × Fin m,
              F k * (starRingEnd ℂ) (F l)
                * eKer n (((k.1.val : ℤ) - (l.1.val : ℤ)) * x.1.val)
                * eKer m (((k.2.val : ℤ) - (l.2.val : ℤ)) * x.2.val)) :=
          Finset.sum_congr rfl fun x _ => expand x
      _ = ((n * m : ℕ) : ℂ)⁻¹ * ((n * m : ℕ) : ℂ)⁻¹ *
            ∑ x : Fin n × Fin m, ∑ k : Fin n × Fin m, ∑ l : Fin n × Fin m,
              F k * (starRingEnd ℂ) (F l)
                * eKer n (((k.1.val : ℤ) - (l.1.val : ℤ)) * x.1.val)
                * eKer m (((k.2.val : ℤ) - (l.2.val : ℤ)) * x.2.val) := by
          rw [← Finset.mul_sum]
      _ = ((n * m : ℕ) : ℂ)⁻¹ * ((n * m : ℕ) : ℂ)⁻¹ *
            ∑ k : Fin n × Fin m, ∑ x : Fin n × Fin m, ∑ l : Fin n × Fin m,
              F k * (starRingEnd ℂ) (F l)
                * eKer n (((k.1.val : ℤ) - (l.1.val : ℤ)) * x.1.val)
                * eKer m (((k.2.val : ℤ) - (l.2.val : ℤ)) * x.2.val) := by
          rw [Finset.sum_comm]
      _ = ((n * m : ℕ) : ℂ)⁻¹ * ((n * m : ℕ) : ℂ)⁻¹ *
            ∑ k : Fin n × Fin m, ∑ l : Fin n × Fin m, ∑ x : Fin n × Fin m,
              F k * (starRingEnd ℂ) (F l)
                * eKer n (((k.1.val : ℤ) - (l.1.val : ℤ)) * x.1.val)
                * eKer m (((k.2.val : ℤ) - (l.2.val : ℤ)) * x.2.val) := by
          congr 1
          exact Finset.sum_congr rfl fun k _ => Finset.sum_comm
      _ = ((n * m : ℕ) : ℂ)⁻¹ * ((n * m : ℕ) : ℂ)⁻¹ *
            ∑ k : Fin n × Fin m, ∑ l : Fin n × Fin m,
              (if l = k then F k * (starRingEnd ℂ) (F k) * ((n * m : ℕ) : ℂ) else 0) := by
          congr 1
          exact Finset.sum_congr rfl fun k _ => Finset.sum_congr rfl fun l _ => inner k l
      _ = ((n * m : ℕ) : ℂ)⁻¹ * ((n * m : ℕ) : ℂ)⁻¹ *
            ∑ k : Fin n × Fin m, F k * (starRingEnd ℂ) (F k) * ((n * m : ℕ) : ℂ) := by
          congr 1
          refine Finset.sum_congr rfl fun k _ => ?_
          rw [Finset.sum_ite_eq' Finset.univ k
            (fun _ => F k * (starRingEnd ℂ) (F k) * ((n * m : ℕ) : ℂ))]
          simp
      _ = ((n * m : ℕ) : ℂ)⁻¹ * ∑ k : Fin n × Fin m, F k * (starRingEnd ℂ) (F k) := by
          rw [← Finset.sum_mul]
          field_simp
          ring
  have lhsC : ((∑ x : Fin n × Fin m, Complex.normSq (ifft2 F x) : ℝ) : ℂ)
      = ∑ x : Fin n × Fin m, ifft2 F x * (starRingEnd ℂ) (ifft2 F x) := by
    push_cast
    exact Finset.sum_congr rfl fun x _ => (Complex.mul_conj _).symm
  have rhsC : ((((n * m : ℕ) : ℝ)⁻¹ * ∑ k : Fin n × Fin m, Complex.normSq (F k) : ℝ) : ℂ)
      = ((n * m : ℕ) : ℂ)⁻¹ * ∑ k : Fin n × Fin m, F k * (starRingEnd ℂ) (F k) := by
    push_cast
    congr 1
    exact Finset.sum_congr rfl fun k _ => (Complex.mul_conj _).symm
  exact Complex.ofReal_injective (by rw [lhsC, rhsC]; exact sumx)

/-- C6: for every real step, the kinetic propagator multiplies each mode by
a unit-modulus phase, so it preserves the spatial integral of `|ψ|²` of the
inverse-transformed field. -/
theorem kinetic_unitarity_c6 {n m : ℕ} (step : ℝ) (ψk : Field2 n m ℂ)
    (Kx Ky : Field2 n m ℝ) :
    atom_num (ifft2 (kinetic_evolution ψk (step : ℂ) Kx Ky)) = atom_num (ifft2 ψk) := by
  rcases Nat.eq_zero_or_pos n with hn | hn
  · subst hn
    simp [atom_num]
  rcases Nat.eq_zero_or_pos m with hm | hm
  · subst hm
    simp [atom_num]
  have hns : ∀ k, Complex.normSq (kinetic_evolution ψk (step : ℂ) Kx Ky k)
      = Complex.normSq (ψk k) := by
    intro k
    have habs : Complex.abs (kinetic_evolution ψk (step : ℂ) Kx Ky k)
        = Complex.abs (ψk k) := by
      unfold kinetic_evolution
      rw [map_mul]
      have hz : -Complex.I * (step : ℂ) * ((Kx k ^ 2 + Ky k ^ 2 : ℝ) : ℂ) / 2
          = ((-(step * (Kx k ^ 2 + Ky k ^ 2) / 2) : ℝ) : ℂ) * Complex.I := by
        push_cast
        ring
      rw [hz, Complex.abs_exp_ofReal_mul_I, mul_one]
    rw [← Complex.sq_abs, ← Complex.sq_abs, habs]
  unfold atom_num
  congr 1
  have habs2 : ∀ (G : Field2 n m ℂ), ∑ x : Fin n × Fin m, Complex.abs (ifft2 G x) ^ 2
      = ∑ x : Fin n × Fin m, Complex.normSq (ifft2 G x) :=
    fun G => Finset.sum_congr rfl fun x _ => Complex.sq_abs _
  rw [habs2, habs2, sum_normSq_ifft2 hn hm, sum_normSq_ifft2 hn hm]
  congr 1
  exact Finset.sum_congr rfl fun k _ => hns k

/-- The resize operation yields exactly the requested length. -/
lemma length_resize_to {α : Type} (l : List α) (k : ℕ) (z : α) :
    (resize_to l k z).length = k := by
  simp only [resize_to, List.length_append, List.length_take, List.length_replicate]
  omega

/-- Fault-free evaluation of the save branch. -/
lemma save_snapshot_noFail {n m : ℕ} (i : ℕ) (s : RTState n m) :
    save_snapshot (fun _ => false) i s = Except.ok
      { psi1k := s.psi1k, psi2k := s.psi2k,
        save_index := s.save_index + 1,
        store1 := (resize_to s.store1 (s.save_index + 1) zeroField).set s.save_index
          (ifft2 s.psi1k),
        store2 := (resize_to s.store2 (s.save_index + 1) zeroField).set s.save_index
          (ifft2 s.psi2k),
        saves := s.saves ++ [i] } := rfl

/-- A fault-free step that hits the save condition appends one slice to each
store and increments `save_index` by one. -/
lemma rt_step_noFail_save {n m : ℕ} (dt g1 g2 g12 mu1 mu2 : ℝ)
    (Kx Ky : Field2 n m ℝ) {Nframe i : ℕ} (hP : (i + 1) % Nframe = 0)
    (s : RTState n m) :
    ∃ s', rt_step noFail dt g1 g2 g12 mu1 mu2 Kx Ky Nframe i s = Except.ok s' ∧
      s'.save_index = s.save_index + 1 ∧ s'.saves = s.saves ++ [i] ∧
      s'.store1.length = s.save_index + 1 ∧ s'.store2.length = s.save_index + 1 := by
  unfold rt_step
  rw [if_pos hP]
  refine ⟨_, save_snapshot_noFail i _, rfl, rfl, ?_, ?_⟩
  · rw [List.length_set, length_resize_to]
    rfl
  · rw [List.length_set, length_resize_to]
    rfl

/-- A fault-free step that misses the save condition leaves the storage
state untouched. -/
lemma rt_step_noFail_skip {n m : ℕ} (dt g1 g2 g12 mu1 mu2 : ℝ)
    (Kx Ky : Field2 n m ℝ) {Nframe i : ℕ} (hP : ¬ (i + 1) % Nframe = 0)
    (s : RTState n m) :
    ∃ s', rt_step noFail dt g1 g2 g12 mu1 mu2 Kx Ky Nframe i s = Except.ok s' ∧
      s'.save_index = s.save_index ∧ s'.saves = s.saves ∧
      s'.store1 = s.store1 ∧ s'.store2 = s.store2 := by
  unfold rt_step
  rw [if_neg hP]
  exact ⟨_, rfl, rfl, rfl, rfl, rfl⟩

/-- Behaviour of the fault-free real-time loop from step `i` for `k` steps:
`save_index` grows by the number of hit save conditions, the append record
grows by exactly those step indices, the store-length invariant
`length = max 1 save_index` is maintained, and the stores are untouched when
no save condition is hit. -/
lemma rt_loop_noFail_spec {n m : ℕ} (dt g1 g2 g12 mu1 mu2 : ℝ)
    (Kx Ky : Field2 n m ℝ) (Nframe : ℕ) : ∀ (k i : ℕ) (s : RTState n m),
    ∃ s', rt_loop noFail dt g1 g2 g12 mu1 mu2 Kx Ky Nframe i k s = Except.ok s' ∧
      s'.save_index = s.save_index
        + ((List.range' i k).filter (fun j => decide ((j + 1) % Nframe = 0))).length ∧
      s'.saves = s.saves ++ (List.range' i k).filter (fun j => decide ((j + 1) % Nframe = 0)) ∧
      ((s.store1.length = max 1 s.save_index ∧ s.store2.length = max 1 s.save_index) →
        (s'.store1.length = max 1 s'.save_index ∧ s'.store2.length = max 1 s'.save_index)) ∧
      (((List.range' i k).filter (fun j => decide ((j + 1) % Nframe = 0))).length = 0 →
        (s'.store1 = s.store1 ∧ s'.store2 = s.store2)) := by
  intro k
  induction k with
  | zero =>
    intro i s
    exact ⟨s, rfl, by simp, by simp, fun h => h, fun _ => ⟨rfl, rfl⟩⟩
  | succ k ih =>
    intro i s
    simp only [List.range'_succ, List.filter_cons]
    by_cases hP : (i + 1) % Nframe = 0
    · obtain ⟨s1, hstep, hsi, hsaves, hl1, hl2⟩ :=
        rt_step_noFail_save dt g1 g2 g12 mu1 mu2 Kx Ky hP s
      obtain ⟨s2, hloop, h2si, h2saves, h2inv, h2unch⟩ := ih (i + 1) s1
      have hloopall : rt_loop noFail dt g1 g2 g12 mu1 mu2 Kx Ky Nframe i (k + 1) s
          = Except.ok s2 := by
        simp only [rt_loop]
        rw [hstep]
        exact hloop
      have hcond : decide ((i + 1) % Nframe = 0) = true := decide_eq_true hP
      refine ⟨s2, hloopall, ?_, ?_, ?_, ?_⟩
      · rw [if_pos hcond, List.length_cons]
        omega
      · rw [if_pos hcond, h2saves, hsaves]
        simp
      · intro _
        refine h2inv ⟨?_, ?_⟩
        · rw [hl1, hsi]
          omega
        · rw [hl2, hsi]
          omega
      · rw [if_pos hcond]
        intro h
        simp at h
    · obtain ⟨s1, hstep, hsi, hsaves, hst1, hst2⟩ :=
        rt_step_noFail_skip dt g1 g2 g12 mu1 mu2 Kx Ky hP s
      obtain ⟨s2, hloop, h2si, h2saves, h2inv, h2unch⟩ := ih (i + 1) s1
      have hloopall : rt_loop noFail dt g1 g2 g12 mu1 mu2 Kx Ky Nframe i (k + 1) s
          = Except.ok s2 := by
        simp only [rt_loop]
        rw [hstep]
        exact hloop
      have hcond : decide ((i + 1) % Nframe = 0) = false := decide_eq_false hP
      refine ⟨s2, hloopall, ?_, ?_, ?_, ?_⟩
      · rw [if_neg (by rw [hcond]; exact Bool.false_ne_true)]
        omega
      · rw [if_neg (by rw [hcond]; exact Bool.false_ne_true), h2saves, hsaves]
      · intro hInv
        refine h2inv ⟨?_, ?_⟩
        · rw [hst1, hsi]
          exact hInv.1
        · rw [hst2, hsi]
          exact hInv.2
      · rw [if_neg (by rw [hcond]; exact Bool.false_ne_true)]
        intro h
        obtain ⟨hu1, hu2⟩ := h2unch h
        exact ⟨by rw [hu1, hst1], by rw [hu2, hst2]⟩

/-- Counting lemma: the number of step indices `j ∈ [i, i+k)` with
`(j+1) mod Nframe = 0` satisfies `count + i/Nframe = (i+k)/Nframe`. -/
lemma count_range'_filter (Nframe : ℕ) : ∀ (k i : ℕ),
    ((List.range' i k).filter (fun j => decide ((j + 1) % Nframe = 0))).length + i / Nframe
      = (i + k) / Nframe := by
  intro k
  induction k with
  | zero =>
    intro i
    simp
  | succ k ih =>
    intro i
    simp only [List.range'_succ, List.filter_cons]
    rw [show i + (k + 1) = i + 1 + k from by omega]
    have h2 := ih (i + 1)
    by_cases hP : (i + 1) % Nframe = 0
    · have h1 : (i + 1) / Nframe = i / Nframe + 1 :=
        Nat.succ_div_of_dvd (Nat.dvd_of_mod_eq_zero hP)
      rw [if_pos (decide_eq_true hP), List.length_cons]
      omega
    · have h1 : (i + 1) / Nframe = i / Nframe := by
        rw [Nat.succ_div, if_neg (fun hd => hP (Nat.mod_eq_zero_of_dvd hd))]
        omega
      rw [if_neg (by rw [decide_eq_false hP]; exact Bool.false_ne_true)]
      omega

/-- C3: over `Nt` real-time steps a snapshot of both components is appended
exactly at the steps `i` with `(i+1) mod Nframe = 0`, so exactly
`⌊Nt/Nframe⌋` post-initial snapshots are appended — also when `Nt` is not a
multiple of `Nframe` — and `save_index` advances by exactly the number of
appended snapshots. -/
theorem rt_snapshot_cadence_c3 {n m : ℕ} (dt g1 g2 g12 mu1 mu2 : ℝ)
    (Kx Ky : Field2 n m ℝ) (Nframe : ℕ) (hNf : 0 < Nframe) (Nt : ℕ)
    (s : RTState n m) :
    ∃ s', real_time_evolution noFail dt g1 g2 g12 mu1 mu2 Kx Ky Nframe Nt s
        = Except.ok s' ∧
      s'.saves = s.saves
        ++ (List.range Nt).filter (fun i => decide ((i + 1) % Nframe = 0)) ∧
      s'.save_index = s.save_index
        + ((List.range Nt).filter (fun i => decide ((i + 1) % Nframe = 0))).length ∧
      s'.save_index = s.save_index + Nt / Nframe := by
  obtain ⟨s', hloop, hsi, hsaves, _, _⟩ :=
    rt_loop_noFail_spec dt g1 g2 g12 mu1 mu2 Kx Ky Nframe Nt 0 s
  have hL : ((List.range' 0 Nt).filter (fun j => decide ((j + 1) % Nframe = 0))).length
      = Nt / Nframe := by
    have h := count_range'_filter Nframe Nt 0
    simpa using h
  refine ⟨s', hloop, ?_, ?_, ?_⟩
  · rw [hsaves, List.range_eq_range']
  · rw [hsi, List.range_eq_range']
  · rw [hsi, hL]

/-- Witness for C3 at concrete inputs (`Nframe = 1`, `Nt = 0`, trivial grid
and parameters). -/
theorem rt_snapshot_cadence_c3_witness :
    (0 : ℕ) < 1 ∧
    ∃ s' : RTState 1 1, real_time_evolution noFail 0 0 0 0 0 0 (fun _ => 0) (fun _ => 0)
        1 0 (rt_start zeroField zeroField) = Except.ok s' ∧
      s'.saves = (rt_start (zeroField : Field2 1 1 ℂ) zeroField).saves
        ++ (List.range 0).filter (fun i => decide ((i + 1) % 1 = 0)) ∧
      s'.save_index = (rt_start (zeroField : Field2 1 1 ℂ) zeroField).save_index
        + ((List.range 0).filter (fun i => decide ((i + 1) % 1 = 0))).length ∧
      s'.save_index = (rt_start (zeroField : Field2 1 1 ℂ) zeroField).save_index + 0 / 1 :=
  ⟨Nat.one_pos,
    rt_snapshot_cadence_c3 0 0 0 0 0 0 (fun _ => 0) (fun _ => 0) 1 Nat.one_pos 0
      (rt_start zeroField zeroField)⟩

/-- C10: the wavefunction datasets start with third dimension 1 (one
all-zero placeholder slice); a fault-free run over `Nt` steps leaves the
stored third dimension at `max 1 ⌊Nt/Nframe⌋`; when `Nt < Nframe` the store
still holds exactly the single all-zero slice that no snapshot ever wrote;
and the first append resizes to `save_index + 1 = 1` and overwrites the
placeholder slice in place. -/
theorem placeholder_slice_c10 {n m : ℕ} (dt g1 g2 g12 mu1 mu2 : ℝ)
    (Kx Ky : Field2 n m ℝ) (Nframe : ℕ) (hNf : 0 < Nframe) (Nt : ℕ)
    (ψ1k ψ2k : Field2 n m ℂ) :
    (∃ s', real_time_evolution noFail dt g1 g2 g12 mu1 mu2 Kx Ky Nframe Nt
        (rt_start ψ1k ψ2k) = Except.ok s' ∧
      s'.store1.length = max 1 (Nt / Nframe) ∧
      s'.store2.length = max 1 (Nt / Nframe) ∧
      (Nt < Nframe → s'.store1 = [zeroField] ∧ s'.store2 = [zeroField])) ∧
    (∀ (i : ℕ) (t : RTState n m) (z w : Field2 n m ℂ),
      t.save_index = 0 → t.store1 = [z] → t.store2 = [w] →
      ∃ t', save_snapshot (fun _ => false) i t = Except.ok t' ∧ t'.save_index = 1 ∧
        t'.store1 = [ifft2 t.psi1k] ∧ t'.store2 = [ifft2 t.psi2k]) := by
  constructor
  · obtain ⟨s', hloop, hsi, hsaves, hinv, hunch⟩ :=
      rt_loop_noFail_spec dt g1 g2 g12 mu1 mu2 Kx Ky Nframe Nt 0 (rt_start ψ1k ψ2k)
    have hL : ((List.range' 0 Nt).filter (fun j => decide ((j + 1) % Nframe = 0))).length
        = Nt / Nframe := by
      have h := count_range'_filter Nframe Nt 0
      simpa using h
    have hsi' : s'.save_index = Nt / Nframe := by
      rw [hsi, hL]
      simp [rt_start]
    have hinv' := hinv ⟨by simp [rt_start, zeroField], by simp [rt_start, zeroField]⟩
    refine ⟨s', hloop, ?_, ?_, ?_⟩
    · rw [hinv'.1, hsi']
    · rw [hinv'.2, hsi']
    · intro hlt
      have hfe : (List.range' 0 Nt).filter (fun j => decide ((j + 1) % Nframe = 0)) = [] := by
        rw [List.filter_eq_nil_iff]
        intro a ha
        rw [← List.range_eq_range', List.mem_range] at ha
        have hlt2 : a + 1 < Nframe := by omega
        simp [Nat.mod_eq_of_lt hlt2]
      obtain ⟨hu1, hu2⟩ := hunch (by rw [hfe]; rfl)
      exact ⟨by rw [hu1]; rfl, by rw [hu2]; rfl⟩
  · intro i t z w hsi0 hst1 hst2
    refine ⟨_, save_snapshot_noFail i t, ?_, ?_, ?_⟩
    · rw [hsi0]
    · rw [hst1, hsi0]
      simp [resize_to]
    · rw [hst2, hsi0]
      simp [resize_to]

/-- Witness for C10 at concrete inputs (`Nframe = 1`, `Nt = 0`, trivial grid
and parameters). -/
theorem placeholder_slice_c10_witness :
    (0 : ℕ) < 1 ∧
    ((∃ s' : RTState 1 1, real_time_evolution noFail 0 0 0 0 0 0 (fun _ => 0) (fun _ => 0)
        1 0 (rt_start zeroField zeroField) = Except.ok s' ∧
      s'.store1.length = max 1 (0 / 1) ∧
      s'.store2.length = max 1 (0 / 1) ∧
      ((0 : ℕ) < 1 → s'.store1 = [zeroField] ∧ s'.store2 = [zeroField])) ∧
    (∀ (i : ℕ) (t : RTState 1 1) (z w : Field2 1 1 ℂ),
      t.save_index = 0 → t.store1 = [z] → t.store2 = [w] →
      ∃ t', save_snapshot (fun _ => false) i t = Except.ok t' ∧ t'.save_index = 1 ∧
        t'.store1 = [ifft2 t.psi1k] ∧ t'.store2 = [ifft2 t.psi2k])) :=
  ⟨Nat.one_pos,
    placeholder_slice_c10 0 0 0 0 0 0 (fun _ => 0) (fun _ => 0) 1 Nat.one_pos 0
      zeroField zeroField⟩

/-- Resizing to a larger or equal length preserves the entries below the old
length. -/
lemma getElem?_resize_to {α : Type} (l : List α) (k : ℕ) (z : α) (j : ℕ)
    (hj : j < l.length) (hjk : j < k) : (resize_to l k z)[j]? = l[j]? := by
  unfold resize_to
  rw [List.getElem?_append, if_pos (by rw [List.length_take]; exact lt_min hjk hj),
    List.getElem?_take, if_pos hjk]

/-- Resize-then-write at slice `si` preserves every slice below `si`. -/
lemma getElem?_resize_set {α : Type} (l : List α) (si : ℕ) (z a : α) (j : ℕ)
    (hj : j < si) (hl : si ≤ l.length) :
    ((resize_to l (si + 1) z).set si a)[j]? = l[j]? := by
  rw [List.getElem?_set_ne (Nat.ne_of_lt hj).symm]
  exact getElem?_resize_to l (si + 1) z j (lt_of_lt_of_le hj hl) (by omega)

/-- C8: the snapshot index advances only on a fully successful append — all
six storage operations (open, two resizes, two slice writes, close/flush)
succeed, in program order, before `save_index` is incremented — and when an
operation fails the run terminates immediately (the loop propagates the
error without running further steps) with `save_index` unchanged and every
previously written slice (index below `save_index`) of both datasets
unchanged and readable. -/
theorem save_index_on_success_c8 {n m : ℕ} (failO : Fin 6 → Bool)
    (s : RTState n m) (hl1 : s.save_index ≤ s.store1.length)
    (hl2 : s.save_index ≤ s.store2.length) (i : ℕ) :
    (∀ s', save_snapshot failO i s = Except.ok s' →
      ((∀ j, failO j = false) ∧ s'.save_index = s.save_index + 1)) ∧
    (∀ e, save_snapshot failO i s = Except.error e →
      (e.save_index = s.save_index ∧
        ∀ j, j < s.save_index → e.store1[j]? = s.store1[j]? ∧ e.store2[j]? = s.store2[j]?)) ∧
    (∀ (fO : ℕ → Fin 6 → Bool) (dt g1 g2 g12 mu1 mu2 : ℝ) (Kx Ky : Field2 n m ℝ)
        (Nframe k : ℕ) (e : RTState n m),
      rt_step fO dt g1 g2 g12 mu1 mu2 Kx Ky Nframe i s = Except.error e →
      rt_loop fO dt g1 g2 g12 mu1 mu2 Kx Ky Nframe i (k + 1) s = Except.error e) := by
  have third : ∀ (fO : ℕ → Fin 6 → Bool) (dt g1 g2 g12 mu1 mu2 : ℝ)
      (Kx Ky : Field2 n m ℝ) (Nframe k : ℕ) (e : RTState n m),
      rt_step fO dt g1 g2 g12 mu1 mu2 Kx Ky Nframe i s = Except.error e →
      rt_loop fO dt g1 g2 g12 mu1 mu2 Kx Ky Nframe i (k + 1) s = Except.error e := by
    intro fO dt g1 g2 g12 mu1 mu2 Kx Ky Nframe k e hstep
    simp only [rt_loop]
    rw [hstep]
  have pres1 : ∀ j, j < s.save_index →
      ((resize_to s.store1 (s.save_index + 1) zeroField)[j]? = s.store1[j]?) :=
    fun j hj => getElem?_resize_to _ _ _ _ (lt_of_lt_of_le hj hl1) (by omega)
  have pres2 : ∀ j, j < s.save_index →
      ((resize_to s.store2 (s.save_index + 1) zeroField)[j]? = s.store2[j]?) :=
    fun j hj => getElem?_resize_to _ _ _ _ (lt_of_lt_of_le hj hl2) (by omega)
  have pres1s : ∀ j, j < s.save_index →
      (((resize_to s.store1 (s.save_index + 1) zeroField).set s.save_index
        (ifft2 s.psi1k))[j]? = s.store1[j]?) :=
    fun j hj => getElem?_resize_set _ _ _ _ _ hj hl1
  have pres2s : ∀ j, j < s.save_index →
      (((resize_to s.store2 (s.save_index + 1) zeroField).set s.save_index
        (ifft2 s.psi2k))[j]? = s.store2[j]?) :=
    fun j hj => getElem?_resize_set _ _ _ _ _ hj hl2
  have main : ∀ r, save_snapshot failO i s = r →
      ((∀ s', r = Except.ok s' →
        ((∀ j, failO j = false) ∧ s'.save_index = s.save_index + 1)) ∧
      (∀ e, r = Except.error e →
        (e.save_index = s.save_index ∧
          ∀ j, j < s.save_index →
            e.store1[j]? = s.store1[j]? ∧ e.store2[j]? = s.store2[j]?))) := by
    intro r hr
    simp only [save_snapshot] at hr
    cases h0 : failO 0 with
    | true =>
      rw [h0, if_pos rfl] at hr
      subst hr
      refine ⟨fun s' h => absurd h (by simp), fun e he => ?_⟩
      injection he with he'
      subst he'
      exact ⟨rfl, fun j hj => ⟨rfl, rfl⟩⟩
    | false =>
    rw [h0, if_neg Bool.false_ne_true] at hr
    cases h1 : failO 1 with
    | true =>
      rw [h1, if_pos rfl] at hr
      subst hr
      refine ⟨fun s' h => absurd h (by simp), fun e he => ?_⟩
      injection he with he'
      subst he'
      exact ⟨rfl, fun j hj => ⟨rfl, rfl⟩⟩
    | false =>
    rw [h1, if_neg Bool.false_ne_true] at hr
    cases h2 : failO 2 with
    | true =>
      rw [h2, if_pos rfl] at hr
      subst hr
      refine ⟨fun s' h => absurd h (by simp), fun e he => ?_⟩
      injection he with he'
      subst he'
      exact ⟨rfl, fun j hj => ⟨pres1 j hj, rfl⟩⟩
    | false =>
    rw [h2, if_neg Bool.false_ne_true] at hr
    cases h3 : failO 3 with
    | true =>
      rw [h3, if_pos rfl] at hr
      subst hr
      refine ⟨fun s' h => absurd h (by simp), fun e he => ?_⟩
      injection he with he'
      subst he'
      exact ⟨rfl, fun j hj => ⟨pres1 j hj, pres2 j hj⟩⟩
    | false =>
    rw [h3, if_neg Bool.false_ne_true] at hr
    cases h4 : failO 4 with
    | true =>
      rw [h4, if_pos rfl] at hr
      subst hr
      refine ⟨fun s' h => absurd h (by simp), fun e he => ?_⟩
      injection he with he'
      subst he'
      exact ⟨rfl, fun j hj => ⟨pres1s j hj, pres2 j hj⟩⟩
    | false =>
    rw [h4, if_neg Bool.false_ne_true] at hr
    cases h5 : failO 5 with
    | true =>
      rw [h5, if_pos rfl] at hr
      subst hr
      refine ⟨fun s' h => absurd h (by simp), fun e he => ?_⟩
      injection he with he'
      subst he'
      exact ⟨rfl, fun j hj => ⟨pres1s j hj, pres2s j hj⟩⟩
    | false =>
    rw [h5, if_neg Bool.false_ne_true] at hr
    subst hr
    refine ⟨fun s' h => ?_, fun e he => absurd he (by simp)⟩
    injection h with h'
    subst h'
    refine ⟨fun j => ?_, rfl⟩
    fin_cases j
    · exact h0
    · exact h1
    · exact h2
    · exact h3
    · exact h4
    · exact h5
  obtain ⟨mok, merr⟩ := main (save_snapshot failO i s) rfl
  exact ⟨mok, merr, third⟩

/-- Witness for C8 at a concrete input: a state holding one written slice
with `save_index = 1`, against the always-failing oracle; the failing append
leaves `save_index` and the stored slice unchanged. -/
theorem save_index_on_success_c8_witness :
    ((⟨zeroField, zeroField, 1, [zeroField], [zeroField], []⟩
        : RTState 1 1).save_index
      ≤ (⟨zeroField, zeroField, 1, [zeroField], [zeroField], []⟩
        : RTState 1 1).store1.length) ∧
    ((⟨zeroField, zeroField, 1, [zeroField], [zeroField], []⟩
        : RTState 1 1).save_index
      ≤ (⟨zeroField, zeroField, 1, [zeroField], [zeroField], []⟩
        : RTState 1 1).store2.length) ∧
    ((⟨zeroField, zeroField, 1, [zeroField], [zeroField], []⟩
        : RTState 1 1).save_index
      = (⟨zeroField, zeroField, 1, [zeroField], [zeroField], []⟩
        : RTState 1 1).save_index ∧
      ∀ j, j < (⟨zeroField, zeroField, 1, [zeroField], [zeroField], []⟩
          : RTState 1 1).save_index →
        (⟨zeroField, zeroField, 1, [zeroField], [zeroField], []⟩
            : RTState 1 1).store1[j]?
          = (⟨zeroField, zeroField, 1, [zeroField], [zeroField], []⟩
            : RTState 1 1).store1[j]? ∧
        (⟨zeroField, zeroField, 1, [zeroField], [zeroField], []⟩
            : RTState 1 1).store2[j]?
          = (⟨zeroField, zeroField, 1, [zeroField], [zeroField], []⟩
            : RTState 1 1).store2[j]?) :=
  ⟨Nat.le_refl _, Nat.le_refl _,
    (save_index_on_success_c8 (fun _ => true)
        (⟨zeroField, zeroField, 1, [zeroField], [zeroField], []⟩ : RTState 1 1)
        (Nat.le_refl _) (Nat.le_refl _) 0).2.1
      (⟨zeroField, zeroField, 1, [zeroField], [zeroField], []⟩ : RTState 1 1)
      (by simp [save_snapshot])⟩

end

end HQV
